import Mathlib

/-!
Verification development for the Montana note-taking application's
node-tree synchronization and encryption-overlay engine.

The TypeScript sources are shallowly embedded as executable Lean
definitions.  External host primitives (WebCrypto PBKDF2/AES-GCM,
`btoa`/`atob` with `JSON.stringify`/`JSON.parse`, the RNG, timers and
the remote row store's ordering) are modelled explicitly; everything
else is translated directly from the source files.
-/

namespace Montana

/-! ## Model codec

`encryptNoteContent` stores `ENCRYPTION_PREFIX + btoa(JSON.stringify({salt, iv, data}))`
and `decryptNoteContent` recovers the payload with `JSON.parse(atob(...))`, which throws
on input that is not valid base64/JSON.  The composite `btoa ∘ JSON.stringify` codec is a
host primitive; it is modelled here by an executable injective serialization into
`String`, whose partial inverse returns `none` exactly where the model parser fails
(the real parser likewise throws on strings outside the image of the encoder, for
example on `"!!!"`, which is not valid base64). -/

/-- Unary encoding of a natural number, terminated by a separator character. -/
def encNat (n : Nat) : List Char := List.replicate n 'x' ++ [',']

/-- Parse one `encNat`-encoded number; `none` on malformed input. -/
def decNat : List Char → Option (Nat × List Char)
  | [] => none
  | c :: cs =>
    if c = ',' then some (0, cs)
    else if c = 'x' then (decNat cs).map (fun p => (p.1 + 1, p.2))
    else none

/-- Take exactly `n` characters; `none` if the input is shorter. -/
def decTake : Nat → List Char → Option (List Char × List Char)
  | 0, cs => some ([], cs)
  | _ + 1, [] => none
  | n + 1, c :: cs => (decTake n cs).map (fun p => (c :: p.1, p.2))

/-- Length-prefixed string field. -/
def encStrF (s : String) : List Char := encNat s.data.length ++ s.data

/-- Parse one `encStrF`-encoded string field. -/
def decStrF (cs : List Char) : Option (String × List Char) :=
  (decNat cs).bind fun p => (decTake p.1 p.2).map fun q => (String.mk q.1, q.2)

/-- Concatenation of the encodings of the numbers of a list. -/
def encNatsAux : List Nat → List Char
  | [] => []
  | n :: ns => encNat n ++ encNatsAux ns

/-- Length-prefixed list of naturals (a byte array field of the payload). -/
def encNatList (l : List Nat) : List Char := encNat l.length ++ encNatsAux l

/-- Parse exactly `k` `encNat`-encoded numbers. -/
def decNats : Nat → List Char → Option (List Nat × List Char)
  | 0, cs => some ([], cs)
  | k + 1, cs => (decNat cs).bind fun p => (decNats k p.2).map fun q => (p.1 :: q.1, q.2)

/-- Parse one `encNatList`-encoded list field. -/
def decNatList (cs : List Char) : Option (List Nat × List Char) :=
  (decNat cs).bind fun p => decNats p.1 p.2

theorem decNat_encNat (n : Nat) (rest : List Char) :
    decNat (encNat n ++ rest) = some (n, rest) := by
  induction n with
  | zero => simp [encNat, decNat]
  | succ n ih =>
    have h : encNat (n + 1) ++ rest = 'x' :: (encNat n ++ rest) := by
      simp [encNat, List.replicate_succ]
    rw [h]
    simp [decNat, ih]

theorem decTake_append (s rest : List Char) :
    decTake s.length (s ++ rest) = some (s, rest) := by
  induction s with
  | nil => simp [decTake]
  | cons c cs ih => simp [decTake, ih]

theorem decStrF_append (s : String) (rest : List Char) :
    decStrF (encStrF s ++ rest) = some (s, rest) := by
  have h : encStrF s ++ rest = encNat s.data.length ++ (s.data ++ rest) := by
    simp [encStrF]
  unfold decStrF
  rw [h, decNat_encNat]
  show (decTake s.data.length (s.data ++ rest)).map _ = _
  rw [decTake_append]
  rfl

theorem decNats_append (l : List Nat) (rest : List Char) :
    decNats l.length (encNatsAux l ++ rest) = some (l, rest) := by
  induction l generalizing rest with
  | nil => simp [encNatsAux, decNats]
  | cons n ns ih => simp [encNatsAux, decNats, List.append_assoc, decNat_encNat, ih]

theorem decNatList_append (l : List Nat) (rest : List Char) :
    decNatList (encNatList l ++ rest) = some (l, rest) := by
  simp [encNatList, decNatList, List.append_assoc, decNat_encNat, decNats_append]

/-! ## Ideal cryptography model

Modelled from the spec: the overlay "derives a key from `password` and a ... salt via a
slow key-derivation function (... 180,000 iterations of a SHA-256-based PBKDF)" and
"encrypts plaintext with a fresh random IV under an authenticated cipher (AES-256-GCM)".
WebCrypto itself is outside the repository, so PBKDF2 is idealised as an injective
function of `(password, salt)` and AES-GCM as an ideal AEAD: decryption succeeds exactly
under the key and IV used to encrypt, and then returns the original plaintext. -/

/-- Idealised PBKDF2-SHA-256 (180000 iterations) derived key. -/
structure DerivedKey where
  password : String
  salt : List Nat
deriving DecidableEq

/-- Source `deriveKey` (encryptionService.ts): PBKDF2 from password and salt. -/
def deriveKey (password : String) (salt : List Nat) : DerivedKey := ⟨password, salt⟩

/-- Idealised AES-256-GCM ciphertext: semantically determined by key, IV and plaintext. -/
structure AeadCiphertext where
  key : DerivedKey
  iv : List Nat
  plain : String
deriving DecidableEq

/-- Ideal AEAD encryption. -/
def aeadEncrypt (key : DerivedKey) (iv : List Nat) (plain : String) : AeadCiphertext :=
  ⟨key, iv, plain⟩

/-- Ideal AEAD decryption: authentication fails (`none`) unless key and IV match. -/
def aeadDecrypt (key : DerivedKey) (iv : List Nat) (ct : AeadCiphertext) : Option String :=
  if ct.key = key ∧ ct.iv = iv then some ct.plain else none

/-- Source `EncryptionPayload` (encryptionService.ts): `{salt, iv, data}`. -/
structure EncryptionPayload where
  salt : List Nat
  iv : List Nat
  data : AeadCiphertext
deriving DecidableEq

/-- Serialization of the ideal ciphertext inside the payload. -/
def encCipher (c : AeadCiphertext) : List Char :=
  encStrF c.key.password ++ encNatList c.key.salt ++ encNatList c.iv ++ encStrF c.plain

/-- Parse one serialized ciphertext. -/
def decCipher (cs : List Char) : Option (AeadCiphertext × List Char) :=
  (decStrF cs).bind fun pw =>
  (decNatList pw.2).bind fun ks =>
  (decNatList ks.2).bind fun kiv =>
  (decStrF kiv.2).map fun pl => (⟨⟨pw.1, ks.1⟩, kiv.1, pl.1⟩, pl.2)

/-- Model of `btoa(JSON.stringify(payload))`. -/
def encodePayload (p : EncryptionPayload) : String :=
  String.mk (encNatList p.salt ++ encNatList p.iv ++ encCipher p.data)

/-- Model of `JSON.parse(atob(raw))` plus the base64 field decodes: `none` models the
exception thrown on input that does not decode. -/
def decodePayload (s : String) : Option EncryptionPayload :=
  match (decNatList s.data).bind fun a =>
        (decNatList a.2).bind fun b =>
        (decCipher b.2).map fun c => ((⟨a.1, b.1, c.1⟩ : EncryptionPayload), c.2) with
  | some (p, []) => some p
  | _ => none

theorem decCipher_append (c : AeadCiphertext) (rest : List Char) :
    decCipher (encCipher c ++ rest) = some (c, rest) := by
  obtain ⟨⟨pw, ks⟩, kiv, pl⟩ := c
  simp [encCipher, decCipher, List.append_assoc, decStrF_append, decNatList_append]

theorem decCipher_enc (c : AeadCiphertext) : decCipher (encCipher c) = some (c, []) := by
  have h := decCipher_append c []
  simpa using h

theorem decodePayload_encodePayload (p : EncryptionPayload) :
    decodePayload (encodePayload p) = some p := by
  obtain ⟨s, i, c⟩ := p
  simp [encodePayload, decodePayload, List.append_assoc, decNatList_append, decCipher_enc]

/-! ## Encryption service (src/services/encryptionService.ts) -/

/-- Source constant in encryptionService.ts tagging encrypted envelopes. -/
def ENCRYPTION_PREFIX : String := "montana:enc:v1:"

/-- Source `isEncryptedContent(content?)`: `!!content && content.startsWith(prefixConst)`.
(The empty string is falsy in JS; the non-empty tag is never a prefix of `""` either, so
the prefix test alone is equivalent.) -/
def isEncryptedContent (content : Option String) : Bool :=
  match content with
  | none => false
  | some c => ENCRYPTION_PREFIX.data.isPrefixOf c.data

/-- Source `encryptNoteContent(plainText, password)`.  The host RNG's fresh `salt`
(16 bytes) and `iv` (12 bytes) from `crypto.getRandomValues` are explicit parameters. -/
def encryptNoteContent (plainText password : String) (salt iv : List Nat) : String :=
  ENCRYPTION_PREFIX ++ encodePayload ⟨salt, iv, aeadEncrypt (deriveKey password salt) iv plainText⟩

/-- The distinct exception outcomes of `decryptNoteContent`:
`notEncrypted` is the early throw for content without the envelope tag;
`payloadParseFailure` is the uncaught exception of `atob`/`JSON.parse`/base64 field
decoding on a corrupt envelope (these calls are outside the try/catch);
`wrongPasswordOrCorrupt` is the single opaque error thrown by the catch handler
around `crypto.subtle.decrypt`. -/
inductive DecryptError
  | notEncrypted
  | payloadParseFailure
  | wrongPasswordOrCorrupt
deriving DecidableEq

/-- Source `decryptNoteContent(encryptedContent, password)`. -/
def decryptNoteContent (encryptedContent password : String) : Except DecryptError String :=
  if isEncryptedContent (some encryptedContent) = false then
    .error .notEncrypted
  else
    let payloadRaw := String.mk (encryptedContent.data.drop ENCRYPTION_PREFIX.data.length)
    match decodePayload payloadRaw with
    | none => .error .payloadParseFailure
    | some payload =>
      match aeadDecrypt (deriveKey password payload.salt) payload.iv payload.data with
      | some plain => .ok plain
      | none => .error .wrongPasswordOrCorrupt

theorem isPrefixOf_self_append (p l : List Char) : p.isPrefixOf (p ++ l) = true := by
  induction p with
  | nil => simp [List.isPrefixOf]
  | cons c cs ih => simp [List.isPrefixOf, ih]

/-- Evaluation of `decryptNoteContent` on any envelope produced by
`encryptNoteContent`: the original plaintext under the same password, the opaque
error under any other password. -/
theorem decrypt_encrypt_eq (plain password tryPw : String) (salt iv : List Nat) :
    decryptNoteContent (encryptNoteContent plain password salt iv) tryPw
      = if tryPw = password then .ok plain else .error .wrongPasswordOrCorrupt := by
  have hdata : (encryptNoteContent plain password salt iv).data
      = ENCRYPTION_PREFIX.data
        ++ (encodePayload ⟨salt, iv, aeadEncrypt (deriveKey password salt) iv plain⟩).data := by
    simp [encryptNoteContent, String.data_append]
  have henc : isEncryptedContent (some (encryptNoteContent plain password salt iv)) = true := by
    simp [isEncryptedContent, hdata, isPrefixOf_self_append]
  have hdrop : String.mk ((encryptNoteContent plain password salt iv).data.drop
        ENCRYPTION_PREFIX.data.length)
      = encodePayload ⟨salt, iv, aeadEncrypt (deriveKey password salt) iv plain⟩ := by
    rw [hdata, List.drop_left]
  rw [decryptNoteContent]
  rw [henc]
  simp only [Bool.true_eq_false, if_false]
  rw [hdrop, decodePayload_encodePayload]
  by_cases hpw : tryPw = password
  · subst hpw
    simp [aeadDecrypt, aeadEncrypt]
  · have hk : deriveKey password salt ≠ deriveKey tryPw salt := by
      simp [deriveKey]
      intro h
      exact hpw h.symm
    simp only [aeadDecrypt, aeadEncrypt]
    rw [if_neg]
    · simp [hpw]
    · intro h
      exact hk (h.1)

/-- C6: `lock` followed immediately by `unlock` with the same password on the resulting
envelope returns the original plaintext byte-for-byte, for every plaintext (including
the empty string), every password and every salt/IV the RNG may produce. -/
theorem lock_unlock_roundtrip (plain password : String) (salt iv : List Nat) :
    decryptNoteContent (encryptNoteContent plain password salt iv) password
      = Except.ok plain := by
  rw [decrypt_encrypt_eq]
  simp

/-- C4 (amended): `unlock` with an incorrect password on a well-formed envelope never
returns plaintext and always reports the single opaque wrong-password-or-corrupt
error. -/
theorem unlock_wrong_password_opaque (plain password tryPw : String) (salt iv : List Nat)
    (h : tryPw ≠ password) :
    decryptNoteContent (encryptNoteContent plain password salt iv) tryPw
      = Except.error DecryptError.wrongPasswordOrCorrupt := by
  rw [decrypt_encrypt_eq, if_neg h]

theorem unlock_wrong_password_opaque_witness :
    ("guess" ≠ "secret" : Prop) ∧
    decryptNoteContent (encryptNoteContent "hello" "secret" [1, 2] [3]) "guess"
      = Except.error DecryptError.wrongPasswordOrCorrupt :=
  ⟨by decide, unlock_wrong_password_opaque "hello" "secret" "guess" [1, 2] [3] (by decide)⟩

/-- C4 (counterexample): a corrupted envelope — here the envelope tag followed by
`"!!!"`, which is not valid base64, so the real `atob` throws outside the try/catch —
is reported as a parse failure, a different error than the opaque
wrong-password-or-corrupt one the claim requires for every corrupted envelope. -/
theorem unlock_corrupt_envelope_distinct_error :
    decryptNoteContent (ENCRYPTION_PREFIX ++ "!!!") "pw"
      = Except.error DecryptError.payloadParseFailure ∧
    DecryptError.payloadParseFailure ≠ DecryptError.wrongPasswordOrCorrupt := by
  constructor
  · rfl
  · decide

/-! ## Data model (src/types.ts) -/

/-- Source `NodeType` enum (values are the strings "FILE" / "FOLDER"). -/
inductive NodeType
  | FILE
  | FOLDER
deriving DecidableEq

/-- The string value of a `NodeType` enum member. -/
def NodeType.toStr : NodeType → String
  | .FILE => "FILE"
  | .FOLDER => "FOLDER"

/-- Source `FileSystemNode` (types.ts); optional fields are `Option`s. -/
structure FileSystemNode where
  id : String
  parentId : Option String
  name : String
  type : NodeType
  content : Option String
  isOpen : Option Bool
  createdAt : Nat
deriving DecidableEq

/-! ## Version history service (src/services/versionHistory.ts) -/

/-- Source `VersionSnapshot`. -/
structure VersionSnapshot where
  id : String
  nodeId : String
  content : String
  timestamp : Nat
  name : String
deriving DecidableEq

/-- Source constant `MAX_VERSIONS`. -/
def MAX_VERSIONS : Nat := 30

/-- JS `array.slice(-n)`: the last `min n length` elements. -/
def sliceLast (l : List VersionSnapshot) (n : Nat) : List VersionSnapshot :=
  l.drop (l.length - n)

/-- Source `saveVersion(nodeId, name, content)`.  The `localStorage` snapshot array is
passed in and returned; `crypto.randomUUID()` and `Date.now()` are the `newId` / `now`
parameters.  The duplicate guard compares the last snapshot for the node; the trim keeps
the last `MAX_VERSIONS` entries for the node, re-appended after the other nodes'
snapshots. -/
def saveVersion (store : List VersionSnapshot) (nodeId name content : String)
    (newId : String) (now : Nat) : List VersionSnapshot :=
  let nodeVersions := store.filter (fun s => s.nodeId == nodeId)
  if nodeVersions.getLast?.map (fun s => s.content) = some content then store
  else
    store.filter (fun s => s.nodeId != nodeId)
      ++ sliceLast (nodeVersions ++ [⟨newId, nodeId, content, now, name⟩]) MAX_VERSIONS

/-- Source App.tsx version-history debounce effect (the body of the `setTimeout`
callback together with the guards that decide whether it is scheduled): it
returns early when there is no active node, the active node is missing, is not a
FILE, has no (or empty, which is falsy) content, or — decisively — when the content
is an encrypted envelope; otherwise it records a snapshot. -/
def versionHistoryEffect (store : List VersionSnapshot) (nodes : List FileSystemNode)
    (activeNodeId : Option String) (newId : String) (now : Nat) : List VersionSnapshot :=
  match activeNodeId with
  | none => store
  | some aid =>
    match nodes.find? (fun n => n.id == aid) with
    | none => store
    | some node =>
      if node.type ≠ NodeType.FILE then store
      else
        match node.content with
        | none => store
        | some c =>
          if c = "" then store
          else if isEncryptedContent (some c) then store
          else saveVersion store node.id node.name c newId now

/-- C7 (counterexample): `saveVersion` itself performs no envelope check — calling it
directly with envelope-tagged content stores a snapshot of the ciphertext. -/
theorem record_stores_ciphertext :
    isEncryptedContent (some (ENCRYPTION_PREFIX ++ "x")) = true ∧
    saveVersion [] "n1" "note" (ENCRYPTION_PREFIX ++ "x") "id0" 0
      = [⟨"id0", "n1", ENCRYPTION_PREFIX ++ "x", 0, "note"⟩] := by
  constructor
  · rfl
  · rfl

/-- C7 (amended): the no-snapshots-of-ciphertext guarantee is enforced by the caller:
the debounced version-history effect skips encrypted-envelope content before ever
invoking `saveVersion`, leaving the snapshot store unchanged. -/
theorem effect_skips_encrypted (store : List VersionSnapshot) (nodes : List FileSystemNode)
    (aid newId : String) (now : Nat) (node : FileSystemNode)
    (hfind : nodes.find? (fun n => n.id == aid) = some node)
    (henc : isEncryptedContent node.content = true) :
    versionHistoryEffect store nodes (some aid) newId now = store := by
  have hsome : ∃ c, node.content = some c ∧ isEncryptedContent (some c) = true := by
    match h : node.content with
    | none => rw [h] at henc; exact absurd henc (by decide)
    | some c => exact ⟨c, rfl, h ▸ henc⟩
  obtain ⟨c, hcc, hencc⟩ := hsome
  have hne : ¬(c = "") := by
    intro h
    subst h
    exact absurd hencc (by decide)
  simp [versionHistoryEffect, hfind, hcc, hne, hencc]

theorem effect_skips_encrypted_witness :
    versionHistoryEffect [] [⟨"n1", none, "note", NodeType.FILE,
        some (ENCRYPTION_PREFIX ++ "x"), none, 0⟩] (some "n1") "id0" 7 = [] :=
  effect_skips_encrypted [] [⟨"n1", none, "note", NodeType.FILE,
    some (ENCRYPTION_PREFIX ++ "x"), none, 0⟩] "n1" "id0" 7
    ⟨"n1", none, "note", NodeType.FILE, some (ENCRYPTION_PREFIX ++ "x"), none, 0⟩
    rfl rfl

/-! ### Repeated `saveVersion` calls (claim C8) -/

/-- The snapshot `saveVersion` builds from one call's `(content, newId, now)` triple. -/
def mkSnap (nodeId name : String) (e : String × String × Nat) : VersionSnapshot :=
  ⟨e.2.1, nodeId, e.1, e.2.2, name⟩

/-- A sequence of `saveVersion` calls for one node, threading the snapshot store. -/
def recordMany (nodeId name : String) :
    List VersionSnapshot → List (String × String × Nat) → List VersionSnapshot
  | store, [] => store
  | store, e :: rest =>
    recordMany nodeId name (saveVersion store nodeId name e.1 e.2.1 e.2.2) rest

theorem getLast?_drop_of_lt {α : Type} (l : List α) (k : Nat) (h : k < l.length) :
    (l.drop k).getLast? = l.getLast? := by
  induction l generalizing k with
  | nil => simp at h
  | cons a t ih =>
    match k with
    | 0 => rfl
    | j + 1 =>
      have hj : j < t.length := by simpa using h
      match t with
      | [] => simp at hj
      | b :: t2 =>
        rw [List.drop_succ_cons, List.getLast?_cons_cons]
        exact ih j hj

theorem sliceLast_append_step (snaps : List VersionSnapshot) (x : VersionSnapshot) :
    sliceLast (sliceLast snaps MAX_VERSIONS ++ [x]) MAX_VERSIONS
      = sliceLast (snaps ++ [x]) MAX_VERSIONS := by
  show ((snaps.drop (snaps.length - 30)) ++ [x]).drop
      (((snaps.drop (snaps.length - 30)) ++ [x]).length - 30)
    = (snaps ++ [x]).drop ((snaps ++ [x]).length - 30)
  by_cases hm : snaps.length ≤ 30
  · have h0 : snaps.length - 30 = 0 := by omega
    rw [h0, List.drop_zero]
  · have hd : (snaps.drop (snaps.length - 30)).length = 30 := by
      rw [List.length_drop]; omega
    have hL : ((snaps.drop (snaps.length - 30)) ++ [x]).length - 30 = 1 := by
      rw [List.length_append, hd]
      simp
    rw [hL]
    rw [List.drop_append_of_le_length (by rw [hd]; omega)]
    rw [List.drop_drop]
    have hR : (snaps ++ [x]).length - 30 = (snaps.length - 30) + 1 := by
      rw [List.length_append]; simp; omega
    rw [hR]
    rw [List.drop_append_of_le_length (by omega)]

theorem filter_nodeId_eq_self (l : List VersionSnapshot) (nodeId : String)
    (h : ∀ s ∈ l, s.nodeId = nodeId) :
    l.filter (fun s => s.nodeId == nodeId) = l :=
  List.filter_eq_self.mpr (fun s hs => by simp [h s hs])

theorem filter_nodeId_ne_nil (l : List VersionSnapshot) (nodeId : String)
    (h : ∀ s ∈ l, s.nodeId = nodeId) :
    l.filter (fun s => s.nodeId != nodeId) = [] := by
  rw [List.filter_eq_nil_iff]
  intro s hs
  simp [h s hs]

theorem saveVersion_step (processed : List (String × String × Nat)) (nodeId name : String)
    (e : String × String × Nat) (hne : processed ≠ [])
    (hlast : ∀ plast, processed.getLast? = some plast → plast.1 ≠ e.1) :
    saveVersion (sliceLast (processed.map (mkSnap nodeId name)) MAX_VERSIONS)
        nodeId name e.1 e.2.1 e.2.2
      = sliceLast ((processed.map (mkSnap nodeId name)) ++ [mkSnap nodeId name e])
          MAX_VERSIONS := by
  set snaps := processed.map (mkSnap nodeId name) with hsnaps
  have hhomog : ∀ s ∈ sliceLast snaps MAX_VERSIONS, s.nodeId = nodeId := by
    intro s hs
    have hmem : s ∈ snaps := List.drop_subset _ _ hs
    rw [hsnaps] at hmem
    obtain ⟨e2, _, rfl⟩ := List.mem_map.mp hmem
    rfl
  have hfilter_eq := filter_nodeId_eq_self _ nodeId hhomog
  have hfilter_ne := filter_nodeId_ne_nil _ nodeId hhomog
  have hplast := List.getLast?_eq_getLast_of_ne_nil hne
  have hsnaps_ne : snaps ≠ [] := by simp [hsnaps, hne]
  have hlast2 : (sliceLast snaps MAX_VERSIONS).getLast?
      = some (mkSnap nodeId name (processed.getLast hne)) := by
    have hpos : 0 < snaps.length := List.length_pos.mpr hsnaps_ne
    have hlt : snaps.length - MAX_VERSIONS < snaps.length := by
      unfold MAX_VERSIONS
      omega
    rw [sliceLast, getLast?_drop_of_lt _ _ hlt, hsnaps, List.getLast?_map, hplast]
    rfl
  have hcond : ¬((sliceLast snaps MAX_VERSIONS).getLast?.map (fun s => s.content)
      = some e.1) := by
    rw [hlast2]
    intro h
    simp [mkSnap] at h
    exact hlast (processed.getLast hne) hplast h
  simp only [saveVersion, hfilter_eq, hfilter_ne, if_neg hcond, List.nil_append]
  rw [sliceLast_append_step]
  rfl

theorem recordMany_inv (nodeId name : String)
    (processed entries : List (String × String × Nat)) (hne : processed ≠ [])
    (hchain : List.Chain' (fun a b => a ≠ b)
      ((processed ++ entries).map (fun x => x.1))) :
    recordMany nodeId name
        (sliceLast (processed.map (mkSnap nodeId name)) MAX_VERSIONS) entries
      = sliceLast ((processed ++ entries).map (mkSnap nodeId name)) MAX_VERSIONS := by
  induction entries generalizing processed with
  | nil => simp [recordMany]
  | cons e rest ih =>
    have hchain2 := hchain
    rw [show (processed ++ e :: rest).map (fun x => x.1)
        = processed.map (fun x => x.1) ++ (e.1 :: rest.map (fun x => x.1)) by simp]
      at hchain2
    rw [List.chain'_append] at hchain2
    obtain ⟨_, _, h3⟩ := hchain2
    have hlast : ∀ plast, processed.getLast? = some plast → plast.1 ≠ e.1 := by
      intro plast hp
      apply h3 plast.1
      · rw [List.getLast?_map, hp]; rfl
      · rfl
    have hstep := saveVersion_step processed nodeId name e hne hlast
    rw [recordMany, hstep]
    rw [show (processed.map (mkSnap nodeId name)) ++ [mkSnap nodeId name e]
        = (processed ++ [e]).map (mkSnap nodeId name) by simp]
    have hres := ih (processed ++ [e]) (by simp)
      (by rw [show (processed ++ [e]) ++ rest = processed ++ e :: rest by simp]; exact hchain)
    rw [hres]
    rw [show (processed ++ [e]) ++ rest = processed ++ e :: rest by simp]

/-- C8: starting from an empty history, `record` called 31 times with pairwise-distinct
contents for one node retains exactly the snapshots of the 30 most recent calls, in
call order — the oldest (first) snapshot is the one evicted. -/
theorem record_31_distinct_keeps_last_30 (nodeId name : String)
    (entries : List (String × String × Nat))
    (hlen : entries.length = 31)
    (hdist : (entries.map (fun x => x.1)).Pairwise (fun a b => a ≠ b)) :
    recordMany nodeId name [] entries
      = (entries.map (mkSnap nodeId name)).drop 1 := by
  match entries with
  | e :: rest =>
    have hfirst : saveVersion [] nodeId name e.1 e.2.1 e.2.2
        = sliceLast ([e].map (mkSnap nodeId name)) MAX_VERSIONS := rfl
    have hchain : List.Chain' (fun a b => a ≠ b)
        (([e] ++ rest).map (fun x => x.1)) := by
      simpa using hdist.chain'
    rw [recordMany, hfirst, recordMany_inv nodeId name [e] rest (by simp) hchain]
    have hlen2 : (([e] ++ rest).map (mkSnap nodeId name)).length = 31 := by
      simp only [List.length_map]
      simpa using hlen
    rw [sliceLast, hlen2]
    simp [MAX_VERSIONS]

/-- 31 call triples with pairwise-distinct contents (distinct lengths of `'a'` runs). -/
def c8entries : List (String × String × Nat) :=
  (List.range 31).map
    (fun i => (String.mk (List.replicate i 'a'), String.mk (List.replicate i 'b'), i))

theorem record_31_distinct_keeps_last_30_witness :
    recordMany "n1" "note" [] c8entries = (c8entries.map (mkSnap "n1" "note")).drop 1 :=
  record_31_distinct_keeps_last_30 "n1" "note" c8entries (by decide) (by decide)

/-! ## Remote sync adapter (src/services/supabaseService.ts)

The remote row store itself is an external engine; it is modelled as a list of rows.
`delete().eq('user_id', userId)` removes the user's rows, `insert(rows)` appends, and
`select('*').order('created_at', {ascending: true})` under the schema's row-level
security returns the user's rows sorted by `created_at` (modelled with insertion
sort). -/

/-- Source `SupabaseNote` row shape (types.ts); `type` is the stored text column. -/
structure SupabaseNote where
  id : String
  parent_id : Option String
  name : String
  type : String
  content : Option String
  is_open : Bool
  created_at : Nat
  updated_at : Nat
  user_id : String
deriving DecidableEq

/-- Source `nodeToRow(node, userId)`; `Date.now()` is the `now` parameter.
`content ?? null` keeps the option, `isOpen ?? false` defaults the flag. -/
def nodeToRow (node : FileSystemNode) (userId : String) (now : Nat) : SupabaseNote :=
  { id := node.id
    parent_id := node.parentId
    name := node.name
    type := node.type.toStr
    content := node.content
    is_open := node.isOpen.getD false
    created_at := node.createdAt
    updated_at := now
    user_id := userId }

/-- Source `rowToNode(row)`: `row.type === 'FILE' ? FILE : FOLDER`,
`content ?? undefined`, `isOpen: row.is_open`. -/
def rowToNode (row : SupabaseNote) : FileSystemNode :=
  { id := row.id
    parentId := row.parent_id
    name := row.name
    type := if row.type = "FILE" then NodeType.FILE else NodeType.FOLDER
    content := row.content
    isOpen := some row.is_open
    createdAt := row.created_at }

/-- Source `pushAll(url, anonKey, nodes, userId)`: destructive full replace — delete all
rows owned by `userId`, then bulk-insert the mapped rows (the empty-list early return
inserts nothing, which coincides with appending the empty map). -/
def pushAll (store : List SupabaseNote) (nodes : List FileSystemNode)
    (userId : String) (now : Nat) : List SupabaseNote :=
  store.filter (fun r => r.user_id != userId) ++ nodes.map (fun n => nodeToRow n userId now)

/-- Row ordering used by the remote store: ascending `created_at`. -/
def byCreatedAt : SupabaseNote → SupabaseNote → Prop := fun a b => a.created_at ≤ b.created_at

instance : DecidableRel byCreatedAt := fun a b => Nat.decLe a.created_at b.created_at

/-- Source `fetchAllNotes`: select every row visible to the principal (row-level
security scopes the select to `user_id = auth.uid()`), ordered by `created_at`
ascending, mapped through `rowToNode`. -/
def fetchAllNotes (store : List SupabaseNote) (userId : String) : List FileSystemNode :=
  (List.insertionSort byCreatedAt (store.filter (fun r => r.user_id == userId))).map rowToNode

/-- Source `pullAll` delegates to `fetchAllNotes`. -/
def pullAll (store : List SupabaseNote) (userId : String) : List FileSystemNode :=
  fetchAllNotes store userId

/-- What one push/pull cycle does to a node: every field survives except that a missing
`isOpen` comes back as `some false` (`isOpen ?? false` in `nodeToRow`). -/
def cloudRoundTrip (n : FileSystemNode) : FileSystemNode :=
  { n with isOpen := some (n.isOpen.getD false) }

theorem rowToNode_nodeToRow (n : FileSystemNode) (userId : String) (now : Nat) :
    rowToNode (nodeToRow n userId now) = cloudRoundTrip n := by
  cases n with
  | mk id parentId name ty content isOpen createdAt =>
    cases ty <;> simp [rowToNode, nodeToRow, cloudRoundTrip, NodeType.toStr]

/-- C2 (amended): `pushAll` followed immediately by `pullAll` against the same backing
store returns, up to the remote ordering, exactly the pushed nodes with every claimed
field intact except `isOpen`, which is normalised to `isOpen ?? false`. -/
theorem push_then_pull_roundtrip (store : List SupabaseNote) (nodes : List FileSystemNode)
    (userId : String) (now : Nat) :
    (pullAll (pushAll store nodes userId now) userId).Perm (nodes.map cloudRoundTrip) := by
  have hvisible : (pushAll store nodes userId now).filter (fun r => r.user_id == userId)
      = nodes.map (fun n => nodeToRow n userId now) := by
    rw [pushAll, List.filter_append]
    have h1 : (store.filter (fun r => r.user_id != userId)).filter
        (fun r => r.user_id == userId) = [] := by
      rw [List.filter_filter, List.filter_eq_nil_iff]
      intro r _
      simp only [Bool.and_eq_true, bne_iff_ne, beq_iff_eq]
      tauto
    have h2 : (nodes.map (fun n => nodeToRow n userId now)).filter
        (fun r => r.user_id == userId) = nodes.map (fun n => nodeToRow n userId now) := by
      rw [List.filter_eq_self]
      intro r hr
      obtain ⟨n, _, rfl⟩ := List.mem_map.mp hr
      simp [nodeToRow]
    rw [h1, h2, List.nil_append]
  rw [pullAll, fetchAllNotes, hvisible]
  have hperm := List.perm_insertionSort byCreatedAt (nodes.map (fun n => nodeToRow n userId now))
  have hmapped := hperm.map rowToNode
  rw [List.map_map] at hmapped
  have hcomp : (nodes.map (rowToNode ∘ fun n => nodeToRow n userId now))
      = nodes.map cloudRoundTrip := by
    apply List.map_congr_left
    intro n _
    exact rowToNode_nodeToRow n userId now
  rw [hcomp] at hmapped
  exact hmapped

/-- A node whose `isOpen` flag is absent, for the C2 counterexample. -/
def c2Node : FileSystemNode :=
  ⟨"a", none, "f", NodeType.FILE, some "hello", none, 5⟩

/-- C2 (counterexample): pushing a node with `isOpen` absent and pulling it back yields
`isOpen = some false`, so the returned node set is not field-equal to the pushed set. -/
theorem push_pull_not_field_equal :
    pullAll (pushAll [] [c2Node] "u" 7) "u" = [{ c2Node with isOpen := some false }] ∧
    pullAll (pushAll [] [c2Node] "u" 7) "u" ≠ [c2Node] := by
  constructor
  · rfl
  · decide

/-! ## Local directory adapter (src/services/localSyncService.ts)

`fileHandleMap` maps node ids to file handles (handles are modelled as numbers) and the
disk maps handles to file contents.  The File System Access write sequence
(`createWritable` / `write` / `close`) is modelled as an unconditional overwrite of the
handle's contents. -/

/-- Association-list lookup (`Map.get`). -/
def mget {α : Type} (m : List (String × α)) (k : String) : Option α :=
  (m.find? (fun e => e.1 == k)).map (fun e => e.2)

/-- Association-list update (`Map.set`). -/
def mset {α : Type} (m : List (String × α)) (k : String) (v : α) : List (String × α) :=
  (k, v) :: m.filter (fun e => e.1 != k)

/-- How one `writeBack` call resolves. `missingHandleWarned` is the
`console.warn(...); return;` path: the promise resolves normally without writing. -/
inductive WriteBackOutcome
  | wrote
  | missingHandleWarned
deriving DecidableEq

/-- Overwrite the file named by handle `h`. -/
def overwriteDisk (disk : List (Nat × String)) (h : Nat) (content : String) :
    List (Nat × String) :=
  (h, content) :: disk.filter (fun e => e.1 != h)

/-- Contents of the file named by handle `h`. -/
def diskRead (disk : List (Nat × String)) (h : Nat) : Option String :=
  (disk.find? (fun e => e.1 == h)).map (fun e => e.2)

/-- Source `writeBack(nodeId, content)`: looks up the stored file handle; if absent it
logs a warning and returns (resolving normally); otherwise it overwrites the file. -/
def writeBack (fileHandleMap : List (String × Nat)) (disk : List (Nat × String))
    (nodeId content : String) : List (Nat × String) × WriteBackOutcome :=
  match mget fileHandleMap nodeId with
  | none => (disk, .missingHandleWarned)
  | some h => (overwriteDisk disk h content, .wrote)

/-- Modelled from the spec: the claimed contract of `writeBack` — it *fails* (rejects)
with `HandleMissing` when the node has no stored handle, and otherwise overwrites the
file.  Used only to compare the claim's words with the source behaviour. -/
def writeBackClaimed (fileHandleMap : List (String × Nat)) (disk : List (Nat × String))
    (nodeId content : String) : Except String (List (Nat × String)) :=
  match mget fileHandleMap nodeId with
  | none => .error "HandleMissing"
  | some h => .ok (overwriteDisk disk h content)

/-- C9 (counterexample): with no stored handle the source `writeBack` resolves normally
(warn-and-return, no write), where the claim requires a `HandleMissing` failure. -/
theorem writeBack_missing_resolves :
    writeBack [] [] "n1" "c" = ([], WriteBackOutcome.missingHandleWarned) ∧
    writeBackClaimed [] [] "n1" "c" = Except.error "HandleMissing" := by
  constructor
  · rfl
  · rfl

/-- C9 (amended): when the node has no stored file handle, `writeBack` logs a warning
and resolves without touching the disk (no failure is surfaced); when a handle exists it
overwrites exactly that handle's file with the given content. -/
theorem writeBack_spec (fileHandleMap : List (String × Nat)) (disk : List (Nat × String))
    (nodeId content : String) :
    (mget fileHandleMap nodeId = none →
      writeBack fileHandleMap disk nodeId content = (disk, .missingHandleWarned)) ∧
    (∀ h, mget fileHandleMap nodeId = some h →
      writeBack fileHandleMap disk nodeId content = (overwriteDisk disk h content, .wrote) ∧
      diskRead (writeBack fileHandleMap disk nodeId content).1 h = some content) := by
  constructor
  · intro hnone
    rw [writeBack, hnone]
  · intro h hsome
    rw [writeBack, hsome]
    refine ⟨rfl, ?_⟩
    simp [diskRead, overwriteDisk, List.find?]

theorem writeBack_spec_witness :
    writeBack [("n1", 4)] [(4, "old")] "n1" "new"
      = (overwriteDisk [(4, "old")] 4 "new", WriteBackOutcome.wrote) ∧
    diskRead (writeBack [("n1", 4)] [(4, "old")] "n1" "new").1 4 = some "new" :=
  (writeBack_spec [("n1", 4)] [(4, "old")] "n1" "new").2 4 rfl

/-! ## Reconciliation coordinator (src/App.tsx)

`withCloudMutationGuard` and the realtime subscription handler, as an event-step
system.  `guardStart` is the entry of `withCloudMutationGuard` (set the flag, clear any
pending unlock timer); `guardFinish` is its `finally` block (schedule the 1.2s unlock
timer — the flag stays set); `unlockTimerFire` is that timer firing (clear the flag);
`realtimeChange` is an incoming realtime notification, whose handler returns without
pulling when the flag is set and otherwise pulls and replaces the node tree. -/

structure CoordState where
  isCloudMutating : Bool
  unlockTimerPending : Bool
  nodes : List FileSystemNode
deriving DecidableEq

inductive CoordEvent
  | guardStart
  | guardFinish
  | unlockTimerFire
  | realtimeChange (remote : List FileSystemNode)

/-- One coordinator step; the `Bool` records whether a `pullAll` was performed. -/
def coordStep (s : CoordState) : CoordEvent → CoordState × Bool
  | .guardStart => ({ s with isCloudMutating := true, unlockTimerPending := false }, false)
  | .guardFinish => ({ s with unlockTimerPending := true }, false)
  | .unlockTimerFire =>
      if s.unlockTimerPending then
        ({ s with isCloudMutating := false, unlockTimerPending := false }, false)
      else (s, false)
  | .realtimeChange remote =>
      if s.isCloudMutating then (s, false)
      else ({ s with nodes := remote }, true)

/-- C3: while the cloud-mutation guard flag is set, an incoming realtime `onChange`
performs no pull and leaves the state (in particular the node tree) untouched; moreover
the flag is set on guard entry and is still set after the guard body completes (the
`finally` block only schedules its release). -/
theorem mutation_guard_blocks_realtime (s : CoordState) (remote : List FileSystemNode)
    (hguard : s.isCloudMutating = true) :
    coordStep s (.realtimeChange remote) = (s, false) ∧
    (coordStep s .guardStart).1.isCloudMutating = true ∧
    (coordStep s .guardFinish).1.isCloudMutating = s.isCloudMutating := by
  refine ⟨?_, rfl, rfl⟩
  rw [coordStep, if_pos hguard]

theorem mutation_guard_blocks_realtime_witness :
    coordStep ⟨true, false, []⟩
        (.realtimeChange [⟨"r", none, "remote", NodeType.FILE, some "x", none, 1⟩])
      = (⟨true, false, []⟩, false) ∧
    (coordStep ⟨true, false, []⟩ .guardStart).1.isCloudMutating = true ∧
    (coordStep ⟨true, false, []⟩ .guardFinish).1.isCloudMutating
      = (⟨true, false, []⟩ : CoordState).isCloudMutating :=
  mutation_guard_blocks_realtime ⟨true, false, []⟩
    [⟨"r", none, "remote", NodeType.FILE, some "x", none, 1⟩] rfl

/-! ## Encryption overlay of the app component (src/App.tsx)

`handleUpdateContent` together with the refs it reads and writes:
`decryptedNotesRef`, `decryptedNotePasswordsRef`, `encryptedContentVersionRef`,
`localSyncNodeIds` and the local-sync flag.  The asynchronous
`encryptNoteContent(content, password)` call it launches is recorded in `pending`
(carrying the captured closure values and the RNG's salt/iv); the promise's `.then`
continuation is `completeReencryption`.  Calls to `localSync.writeBack` are logged in
`diskWrites`. -/

/-- An in-flight re-encryption: the values captured by the `.then` closure. -/
structure PendingEncryption where
  id : String
  version : Nat
  plain : String
  password : String
  salt : List Nat
  iv : List Nat
deriving BEq, DecidableEq

structure OverlayState where
  nodes : List FileSystemNode
  decryptedNotes : List (String × String)
  decryptedNotePasswords : List (String × String)
  encryptedContentVersion : List (String × Nat)
  pending : List PendingEncryption
  localSynced : Bool
  localSyncNodeIds : List String
  diskWrites : List (String × String)
deriving DecidableEq

/-- Source `handleUpdateContent(id, content)`. -/
def handleUpdateContent (st : OverlayState) (id content : String)
    (salt iv : List Nat) : OverlayState :=
  match st.nodes.find? (fun n => n.id == id) with
  | none => st
  | some target =>
    if target.type ≠ NodeType.FILE then st
    else if isEncryptedContent target.content = false then
      { st with
        nodes := st.nodes.map
          (fun n => if n.id == id then { n with content := some content } else n)
        diskWrites :=
          if st.localSynced && st.localSyncNodeIds.contains id then
            st.diskWrites ++ [(id, content)]
          else st.diskWrites }
    else
      match mget st.decryptedNotePasswords id with
      | none => st
      | some password =>
        { st with
          decryptedNotes := mset st.decryptedNotes id content
          encryptedContentVersion := mset st.encryptedContentVersion id
            ((mget st.encryptedContentVersion id).getD 0 + 1)
          pending := st.pending ++
            [⟨id, (mget st.encryptedContentVersion id).getD 0 + 1,
              content, password, salt, iv⟩] }

/-- The `.then` continuation of the launched `encryptNoteContent` promise: if the
per-node version counter moved on, the completed re-encryption is discarded; otherwise
the ciphertext is written into the tree (and written back to disk when synced). -/
def completeReencryption (st : OverlayState) (p : PendingEncryption) : OverlayState :=
  if mget st.encryptedContentVersion p.id ≠ some p.version then
    { st with pending := st.pending.erase p }
  else
    { st with
      pending := st.pending.erase p
      nodes := st.nodes.map
        (fun n => if n.id == p.id then
          { n with content := some (encryptNoteContent p.plain p.password p.salt p.iv) }
          else n)
      diskWrites :=
        if st.localSynced && st.localSyncNodeIds.contains p.id then
          st.diskWrites ++ [(p.id, encryptNoteContent p.plain p.password p.salt p.iv)]
        else st.diskWrites }

theorem mget_mset_self {α : Type} (m : List (String × α)) (k : String) (v : α) :
    mget (mset m k v) k = some v := by
  simp [mget, mset, List.find?]

theorem find?_map_update (l : List FileSystemNode) (id : String) (c : Option String)
    (target : FileSystemNode)
    (h : l.find? (fun n => n.id == id) = some target) :
    (l.map (fun n => if n.id == id then { n with content := c } else n)).find?
      (fun n => n.id == id) = some { target with content := c } := by
  induction l with
  | nil => simp at h
  | cons a l ih =>
    cases ha : a.id == id with
    | true =>
      simp only [List.find?_cons, ha] at h
      injection h with h
      subst h
      rw [List.map_cons, if_pos ha]
      simp only [List.find?_cons]
      have hup : (({ a with content := c } : FileSystemNode).id == id) = true := ha
      rw [hup]
    | false =>
      simp only [List.find?_cons, ha] at h
      rw [List.map_cons, if_neg (by simp [ha])]
      simp only [List.find?_cons]
      have hup : (a.id == id) = false := ha
      rw [hup]
      exact ih h

theorem handleUpdateContent_locked_eq (st : OverlayState) (id content : String)
    (salt iv : List Nat) (target : FileSystemNode) (pw : String)
    (hfind : st.nodes.find? (fun n => n.id == id) = some target)
    (htype : target.type = NodeType.FILE)
    (henc : isEncryptedContent target.content = true)
    (hpw : mget st.decryptedNotePasswords id = some pw) :
    handleUpdateContent st id content salt iv
      = { st with
          decryptedNotes := mset st.decryptedNotes id content
          encryptedContentVersion := mset st.encryptedContentVersion id
            ((mget st.encryptedContentVersion id).getD 0 + 1)
          pending := st.pending ++
            [⟨id, (mget st.encryptedContentVersion id).getD 0 + 1,
              content, pw, salt, iv⟩] } := by
  simp [handleUpdateContent, hfind, htype, henc, hpw]

theorem completeReencryption_stale (st : OverlayState) (p : PendingEncryption)
    (h : mget st.encryptedContentVersion p.id ≠ some p.version) :
    completeReencryption st p = { st with pending := st.pending.erase p } := by
  rw [completeReencryption, if_pos h]

theorem completeReencryption_fresh (st : OverlayState) (p : PendingEncryption)
    (h : mget st.encryptedContentVersion p.id = some p.version) :
    completeReencryption st p
      = { st with
          pending := st.pending.erase p
          nodes := st.nodes.map
            (fun n => if n.id == p.id then
              { n with content := some (encryptNoteContent p.plain p.password p.salt p.iv) }
              else n)
          diskWrites :=
            if st.localSynced && st.localSyncNodeIds.contains p.id then
              st.diskWrites ++ [(p.id, encryptNoteContent p.plain p.password p.salt p.iv)]
            else st.diskWrites } := by
  rw [completeReencryption, if_neg (by simp [h])]

/-- C1: two rapid edits of a locked node with a cached password; awaiting both
re-encryptions in either completion order leaves the tree holding the ciphertext of the
second edit, which decrypts to the second edit's plaintext; the first edit's completed
re-encryption, its version counter superseded, is discarded without touching the
tree. -/
theorem double_edit_version_guard (st : OverlayState) (id c1 c2 pw : String)
    (s1 i1 s2 i2 : List Nat) (target : FileSystemNode)
    (hfind : st.nodes.find? (fun n => n.id == id) = some target)
    (htype : target.type = NodeType.FILE)
    (henc : isEncryptedContent target.content = true)
    (hpw : mget st.decryptedNotePasswords id = some pw) :
    let v := (mget st.encryptedContentVersion id).getD 0
    let st2 := handleUpdateContent (handleUpdateContent st id c1 s1 i1) id c2 s2 i2
    let p1 : PendingEncryption := ⟨id, v + 1, c1, pw, s1, i1⟩
    let p2 : PendingEncryption := ⟨id, v + 2, c2, pw, s2, i2⟩
    let enc2 := encryptNoteContent c2 pw s2 i2
    (completeReencryption st2 p1).nodes = st2.nodes ∧
    ((completeReencryption (completeReencryption st2 p1) p2).nodes.find?
        (fun n => n.id == id)).map (fun n => n.content) = some (some enc2) ∧
    ((completeReencryption (completeReencryption st2 p2) p1).nodes.find?
        (fun n => n.id == id)).map (fun n => n.content) = some (some enc2) ∧
    decryptNoteContent enc2 pw = Except.ok c2 := by
  intro v st2 p1 p2 enc2
  have hp1id : p1.id = id := rfl
  have hp1ver : p1.version = v + 1 := rfl
  have hp2id : p2.id = id := rfl
  have hp2ver : p2.version = v + 2 := rfl
  have h1 := handleUpdateContent_locked_eq st id c1 s1 i1 target pw hfind htype henc hpw
  have h1nodes : (handleUpdateContent st id c1 s1 i1).nodes = st.nodes := by rw [h1]
  have h1pw : mget (handleUpdateContent st id c1 s1 i1).decryptedNotePasswords id
      = some pw := by
    rw [h1]; exact hpw
  have h1ver : mget (handleUpdateContent st id c1 s1 i1).encryptedContentVersion id
      = some (v + 1) := by
    rw [h1]; exact mget_mset_self _ _ _
  have h1find : (handleUpdateContent st id c1 s1 i1).nodes.find? (fun n => n.id == id)
      = some target := by
    rw [h1nodes]; exact hfind
  have h2 := handleUpdateContent_locked_eq (handleUpdateContent st id c1 s1 i1)
    id c2 s2 i2 target pw h1find htype henc h1pw
  have h2nodes : st2.nodes = st.nodes := by
    show (handleUpdateContent (handleUpdateContent st id c1 s1 i1) id c2 s2 i2).nodes
      = st.nodes
    rw [h2]; exact h1nodes
  have h2ver : mget st2.encryptedContentVersion id = some (v + 2) := by
    show mget (handleUpdateContent (handleUpdateContent st id c1 s1 i1)
      id c2 s2 i2).encryptedContentVersion id = some (v + 2)
    rw [h2, h1ver, mget_mset_self]
    rfl
  have hstale1 : mget st2.encryptedContentVersion p1.id ≠ some p1.version := by
    rw [hp1id, hp1ver, h2ver]
    intro hcontra
    injection hcontra with hcontra
    omega
  have hA := completeReencryption_stale st2 p1 hstale1
  have hAnodes : (completeReencryption st2 p1).nodes = st2.nodes := by rw [hA]
  have hAver : (completeReencryption st2 p1).encryptedContentVersion
      = st2.encryptedContentVersion := by rw [hA]
  have hlam : (fun (n : FileSystemNode) => if n.id == p2.id then
      { n with content := some (encryptNoteContent p2.plain p2.password p2.salt p2.iv) }
      else n)
      = (fun n => if n.id == id then { n with content := some enc2 } else n) := rfl
  refine ⟨hAnodes, ?_, ?_, ?_⟩
  · have hBfresh : mget (completeReencryption st2 p1).encryptedContentVersion p2.id
        = some p2.version := by
      rw [hAver, hp2id, hp2ver, h2ver]
    have hB := completeReencryption_fresh _ p2 hBfresh
    have hBnodes : (completeReencryption (completeReencryption st2 p1) p2).nodes
        = (completeReencryption st2 p1).nodes.map
          (fun n => if n.id == p2.id then
            { n with content := some (encryptNoteContent p2.plain p2.password p2.salt p2.iv) }
            else n) := by
      rw [hB]
    rw [hBnodes, hAnodes, h2nodes, hlam, find?_map_update _ _ _ _ hfind]
    rfl
  · have hCfresh : mget st2.encryptedContentVersion p2.id = some p2.version := by
      rw [hp2id, hp2ver]; exact h2ver
    have hC := completeReencryption_fresh st2 p2 hCfresh
    have hCnodes : (completeReencryption st2 p2).nodes
        = st2.nodes.map
          (fun n => if n.id == p2.id then
            { n with content := some (encryptNoteContent p2.plain p2.password p2.salt p2.iv) }
            else n) := by
      rw [hC]
    have hCver : (completeReencryption st2 p2).encryptedContentVersion
        = st2.encryptedContentVersion := by rw [hC]
    have hDstale : mget (completeReencryption st2 p2).encryptedContentVersion p1.id
        ≠ some p1.version := by
      rw [hCver]; exact hstale1
    have hD := completeReencryption_stale _ p1 hDstale
    have hDnodes : (completeReencryption (completeReencryption st2 p2) p1).nodes
        = (completeReencryption st2 p2).nodes := by rw [hD]
    rw [hDnodes, hCnodes, h2nodes, hlam, find?_map_update _ _ _ _ hfind]
    rfl
  · show decryptNoteContent (encryptNoteContent c2 pw s2 i2) pw = Except.ok c2
    rw [decrypt_encrypt_eq]
    simp

/-- A concrete overlay state for the C1 witness: one locked FILE node with its
plaintext and password cached. -/
def c1State : OverlayState :=
  { nodes := [⟨"n1", none, "note", NodeType.FILE,
      some (encryptNoteContent "orig" "pw" [1] [2]), none, 0⟩]
    decryptedNotes := [("n1", "orig")]
    decryptedNotePasswords := [("n1", "pw")]
    encryptedContentVersion := []
    pending := []
    localSynced := false
    localSyncNodeIds := []
    diskWrites := [] }

theorem double_edit_version_guard_witness :
    let v := (mget c1State.encryptedContentVersion "n1").getD 0
    let st2 := handleUpdateContent (handleUpdateContent c1State "n1" "one" [3] [4])
      "n1" "two" [5] [6]
    let p1 : PendingEncryption := ⟨"n1", v + 1, "one", "pw", [3], [4]⟩
    let p2 : PendingEncryption := ⟨"n1", v + 2, "two", "pw", [5], [6]⟩
    let enc2 := encryptNoteContent "two" "pw" [5] [6]
    (completeReencryption st2 p1).nodes = st2.nodes ∧
    ((completeReencryption (completeReencryption st2 p1) p2).nodes.find?
        (fun n => n.id == "n1")).map (fun n => n.content) = some (some enc2) ∧
    ((completeReencryption (completeReencryption st2 p2) p1).nodes.find?
        (fun n => n.id == "n1")).map (fun n => n.content) = some (some enc2) ∧
    decryptNoteContent enc2 "pw" = Except.ok "two" :=
  double_edit_version_guard c1State "n1" "one" "two" "pw" [3] [4] [5] [6]
    ⟨"n1", none, "note", NodeType.FILE,
      some (encryptNoteContent "orig" "pw" [1] [2]), none, 0⟩
    rfl rfl rfl rfl

/-- C10: an edit of a locked FILE node with no cached password is a complete no-op:
the whole overlay state — tree, plaintext cache, password cache, version counters,
pending re-encryptions and disk-write log — is returned unchanged. -/
theorem locked_edit_without_password_noop (st : OverlayState) (id content : String)
    (salt iv : List Nat) (target : FileSystemNode)
    (hfind : st.nodes.find? (fun n => n.id == id) = some target)
    (htype : target.type = NodeType.FILE)
    (henc : isEncryptedContent target.content = true)
    (hpw : mget st.decryptedNotePasswords id = none) :
    handleUpdateContent st id content salt iv = st := by
  simp [handleUpdateContent, hfind, htype, henc, hpw]

/-- A concrete overlay state for the C10 witness: one locked FILE node, empty caches. -/
def c10State : OverlayState :=
  { nodes := [⟨"n1", none, "note", NodeType.FILE,
      some (encryptNoteContent "orig" "pw" [1] [2]), none, 0⟩]
    decryptedNotes := []
    decryptedNotePasswords := []
    encryptedContentVersion := []
    pending := []
    localSynced := false
    localSyncNodeIds := []
    diskWrites := [] }

theorem locked_edit_without_password_noop_witness :
    handleUpdateContent c10State "n1" "sneaky edit" [7] [8] = c10State :=
  locked_edit_without_password_noop c10State "n1" "sneaky edit" [7] [8]
    ⟨"n1", none, "note", NodeType.FILE,
      some (encryptNoteContent "orig" "pw" [1] [2]), none, 0⟩
    rfl rfl rfl rfl

/-! ## Node tree move (src/App.tsx handleMoveNode)

The source's `isDescendant(parentId, targetId)` recurses up the `parentId` chain without
a bound; the embedding carries explicit fuel.  `handleMoveNode` runs it with fuel
`nodes.length + 1`: on an acyclic node list every parent chain visits pairwise-distinct
nodes, so its length is at most `nodes.length` and this fuel never runs out where the
source recursion terminates. -/

/-- Source `isDescendant(pid, tid)` inside `handleMoveNode`: `false` for a null parent,
`true` when the chain hits `tid`, otherwise recurse on the found node's parent. -/
def isDescendant (nodes : List FileSystemNode) : Nat → Option String → String → Bool
  | _, none, _ => false
  | 0, some _, _ => false
  | fuel + 1, some p, tid =>
    if p == tid then true
    else
      match nodes.find? (fun n => n.id == p) with
      | some parent => isDescendant nodes fuel parent.parentId tid
      | none => false

/-- Source `handleMoveNode(nodeId, newParentId)`: a move whose proposed new parent is
the node itself or one of its descendants returns the previous tree unchanged;
otherwise the node's `parentId` is rewritten. -/
def handleMoveNode (nodes : List FileSystemNode) (nodeId : String)
    (newParentId : Option String) : List FileSystemNode :=
  if isDescendant nodes (nodes.length + 1) newParentId nodeId then nodes
  else nodes.map (fun n => if n.id == nodeId then { n with parentId := newParentId } else n)

/-- `ReachesUpWithin nodes target start k`: `start` equals `target`, or walking
`parentId` links upward from `start` reaches `target` in at most `k` steps.  `p` is a
descendant of `n` (or `p = n`) in the tree exactly when `ReachesUpWithin nodes n p k`
for some `k`, and in a tree the chain visits distinct nodes, so `k ≤ nodes.length`. -/
inductive ReachesUpWithin (nodes : List FileSystemNode) (target : String) :
    String → Nat → Prop
  | here (start : String) (k : Nat) (h : start = target) :
      ReachesUpWithin nodes target start k
  | up (start q : String) (k : Nat) (node : FileSystemNode)
      (hfind : nodes.find? (fun n => n.id == start) = some node)
      (hparent : node.parentId = some q)
      (hrec : ReachesUpWithin nodes target q k) :
      ReachesUpWithin nodes target start (k + 1)

theorem isDescendant_of_reaches (nodes : List FileSystemNode) (target start : String)
    (k : Nat) (h : ReachesUpWithin nodes target start k) (fuel : Nat) (hk : k < fuel) :
    isDescendant nodes fuel (some start) target = true := by
  induction h generalizing fuel with
  | here s k hs =>
    subst hs
    match fuel, hk with
    | f + 1, _ =>
      simp [isDescendant]
  | up s q k node hfind hparent hrec ih =>
    match fuel, hk with
    | f + 1, hk =>
      rw [isDescendant]
      by_cases hs : (s == target) = true
      · rw [if_pos hs]
      · rw [if_neg hs, hfind]
        show isDescendant nodes f node.parentId target = true
        rw [hparent]
        exact ih f (by omega)

/-- C5: moving a node `n` onto `p`, where `p` is `n` itself or a descendant of `n`
(its upward `parentId` chain reaches `n` within the size of the node list, as it always
does in a tree), returns the node list entirely unchanged — a silent no-op, with the
ancestry computed by walking `parentId` links upward from the proposed new parent. -/
theorem move_into_descendant_noop (nodes : List FileSystemNode) (n p : String) (k : Nat)
    (hreach : ReachesUpWithin nodes n p k) (hk : k ≤ nodes.length) :
    handleMoveNode nodes n (some p) = nodes := by
  rw [handleMoveNode,
    if_pos (isDescendant_of_reaches nodes n p k hreach (nodes.length + 1) (by omega))]

/-- Three-node chain `a ← b ← c` for the C5 witness. -/
def c5Nodes : List FileSystemNode :=
  [⟨"a", none, "A", NodeType.FOLDER, none, some true, 0⟩,
   ⟨"b", some "a", "B", NodeType.FOLDER, none, some true, 1⟩,
   ⟨"c", some "b", "C", NodeType.FOLDER, none, some true, 2⟩]

theorem move_into_descendant_noop_witness :
    handleMoveNode c5Nodes "a" (some "c") = c5Nodes :=
  move_into_descendant_noop c5Nodes "a" "c" 2
    (ReachesUpWithin.up "c" "b" 1 ⟨"c", some "b", "C", NodeType.FOLDER, none, some true, 2⟩
      rfl rfl
      (ReachesUpWithin.up "b" "a" 0 ⟨"b", some "a", "B", NodeType.FOLDER, none, some true, 1⟩
        rfl rfl
        (ReachesUpWithin.here "a" 0 rfl)))
    (by decide)

end Montana
